import Mathlib

/-!
# Verification of the RNN training code (rnn.py / runner.py)

A shallow embedding of the recurrent-network code in `rnn.py` and of the
training-loop logic in `runner.py`, over exact rationals.  Vectors are
functions `Fin n → ℚ`, matrices are functions `Fin m → Fin n → ℚ`,
Python list/array indexing (including its negative-index wrap) is
modelled by `pyIdx`, and every operation that can raise a Python exception
returns an `Option`.

The numeric primitives (`make_onehot`, `sigmoid`, `softmax`, `grad`) live
in `rnnmath.py`, which is not part of the sources at hand; they are
modelled from the specification, with the transcendental `exp` abstracted
as an explicit function parameter `expF` (the distribution and shape
properties proved below hold for every positive `expF`).
-/

set_option autoImplicit false

/-- A real vector of length `n`, with exact rational entries. -/
abbrev Vec (n : ℕ) := Fin n → ℚ

/-- A real matrix with `m` rows and `n` columns, as a plain function. -/
abbrev Mat (m n : ℕ) := Fin m → Fin n → ℚ

/-- `numpy.outer(u, w)`: the matrix `u_i * w_j`. -/
def outerQ {a b : ℕ} (u : Vec a) (w : Vec b) : Mat a b :=
  fun i j => u i * w j

/-- Matrix-vector product `M @ w`. -/
def matVec {a b : ℕ} (M : Mat a b) (w : Vec b) : Vec a :=
  fun i => ∑ j, M i j * w j

/-- `numpy.transpose` of a matrix. -/
def transposeQ {a b : ℕ} (M : Mat a b) : Mat b a :=
  fun i j => M j i

/-- Python sequence indexing `l[i]`: a negative index `i` with
`-len(l) ≤ i` wraps to `len(l) + i`; an index out of range raises
`IndexError`, modelled as `none`. -/
def pyIdx {α : Type} (l : List α) (i : ℤ) : Option α :=
  let j : ℤ := if i < 0 then i + l.length else i
  if 0 ≤ j then l.get? j.toNat else none

/-- Modelled from the spec: `oneHot(index, size)` is a vector of length
`size` with `1.0` at `index` and `0` elsewhere, failing (DomainError) if
`index` is out of `[0, size)`.  Embeds `make_onehot` of `rnnmath.py`;
token indices are natural numbers, so only the upper bound can fail. -/
def make_onehot (i : ℕ) (n : ℕ) : Option (Vec n) :=
  if i < n then some (fun j => if (j : ℕ) = i then 1 else 0) else none

/-- The total one-hot vector (value of `make_onehot` on in-range input),
used to state closed forms. -/
def oneHotT (i : ℕ) (n : ℕ) : Vec n :=
  fun j => if (j : ℕ) = i then 1 else 0

/-- Modelled from the spec: elementwise logistic sigmoid
`1/(1+exp(-v))`, with `exp` abstracted as the parameter `expF`. -/
def sigmoid (expF : ℚ → ℚ) (z : ℚ) : ℚ :=
  1 / (1 + expF (-z))

/-- Modelled from the spec: `softmax(v)_i = exp(v_i) / Σ_j exp(v_j)`,
with `exp` abstracted as the parameter `expF`. -/
def softmax {n : ℕ} (expF : ℚ → ℚ) (v : Vec n) : Vec n :=
  fun i => expF (v i) / ∑ j, expF (v j)

/-- Modelled from the spec: `sigmoidGradientFromOutput(s) = s*(1-s)`
elementwise, applied to the stored sigmoid output.  Embeds `grad` of
`rnnmath.py`. -/
def grad {n : ℕ} (s : Vec n) : Vec n :=
  fun i => s i * (1 - s i)

/-- The RNN model state (`rnn.py`, class `RNN`): weight matrices
`U` (hidden→hidden), `V` (input→hidden), `W` (hidden→output) and their
gradient accumulators. -/
@[ext]
structure RNN (v h o : ℕ) where
  U : Mat h h
  V : Mat h v
  W : Mat o h
  deltaU : Mat h h
  deltaV : Mat h v
  deltaW : Mat o h

namespace RNN

variable {v h o : ℕ}

/-- Loop body sequence of `RNN.predict` (rnn.py lines 64-69), iterating
over the timestep list `ts`, threading the output rows `y` and hidden
rows `s` (Python preallocates both as zero arrays and assigns row `t` in
iteration `t`). -/
def predictLoop (m : RNN v h o) (expF : ℚ → ℚ) (x : List ℕ) :
    List ℕ → List (Vec o) → List (Vec h) → Option (List (Vec o) × List (Vec h))
  | [], y, s => some (y, s)
  | t :: ts, y, s => do
    let xt ← pyIdx x t
    let one_hot_x ← make_onehot xt v
    let sPrev ← pyIdx s ((t : ℤ) - 1)
    let st : Vec h := fun i => sigmoid expF ((matVec m.V one_hot_x + matVec m.U sPrev) i)
    let yt : Vec o := softmax expF (matVec m.W st)
    predictLoop m expF x ts (y.set t yt) (s.set t st)

/-- `RNN.predict` (rnn.py lines 46-70): forward pass.  The final `RNN`
component is the threaded object state; `predict` assigns no attribute of
`self`, so it is returned unchanged. -/
def predict (m : RNN v h o) (expF : ℚ → ℚ) (x : List ℕ) :
    Option (List (Vec o) × List (Vec h) × RNN v h o) := do
  let (y, s) ← predictLoop m expF x (List.range x.length)
      (List.replicate x.length 0) (List.replicate (x.length + 1) 0)
  some (y, s, m)

/-- Loop body of `RNN.acc_deltas` (rnn.py lines 88-100) over the timestep
list `ts` (the source iterates `reversed(range(len(x)))`), threading the
model whose accumulators are updated by `+=`. -/
def accDeltasLoop (x d : List ℕ) (y : List (Vec o)) (s : List (Vec h)) :
    List ℕ → RNN v h o → Option (RNN v h o)
  | [], m => some m
  | t :: ts, m => do
    let dt ← pyIdx d t
    let one_hot_dt ← make_onehot dt o
    let yt ← pyIdx y t
    let delta_out : Vec o := one_hot_dt - yt
    let st ← pyIdx s t
    let delta_in : Vec h := fun i => matVec (transposeQ m.W) delta_out i * grad st i
    let xt ← pyIdx x t
    let one_hot_xt ← make_onehot xt v
    let sPrev ← pyIdx s ((t : ℤ) - 1)
    accDeltasLoop x d y s ts
      { m with
        deltaW := m.deltaW + outerQ delta_out st,
        deltaV := m.deltaV + outerQ delta_in one_hot_xt,
        deltaU := m.deltaU + outerQ delta_in sPrev }

/-- `RNN.acc_deltas` (rnn.py lines 72-100): standard backpropagation over
the whole sequence, accumulating (`+=`) into the delta matrices. -/
def acc_deltas (m : RNN v h o) (x d : List ℕ) (y : List (Vec o)) (s : List (Vec h)) :
    Option (RNN v h o) :=
  accDeltasLoop x d y s (List.range x.length).reverse m

/-- `RNN.acc_deltas_np` (rnn.py lines 102-131): single-label standard
backpropagation at the final timestep only; note the plain assignments
(`=`, not `+=`) to all three accumulators. -/
def acc_deltas_np (m : RNN v h o) (x d : List ℕ) (y : List (Vec o)) (s : List (Vec h)) :
    Option (RNN v h o) :=
  let t : ℤ := (x.length : ℤ) - 1
  do
  let d0 ← pyIdx d 0
  let one_hot_dt ← make_onehot d0 o
  let yt ← pyIdx y t
  let delta_out : Vec o := one_hot_dt - yt
  let st ← pyIdx s t
  let delta_in : Vec h := fun i => matVec (transposeQ m.W) delta_out i * grad st i
  let xt ← pyIdx x t
  let one_hot_xt ← make_onehot xt v
  let sPrev ← pyIdx s (t - 1)
  some { m with
         deltaW := outerQ delta_out st,
         deltaV := outerQ delta_in one_hot_xt,
         deltaU := outerQ delta_in sPrev }

/-- Shared inner unrolling loop of `RNN.acc_deltas_bptt` (rnn.py lines
158-171) and `RNN.acc_deltas_bptt_np` (rnn.py lines 198-221): iterates
over the lookback list `ts_` (`t_` values), threading the model and the
current error `delta_in`.  At `t_ = 0` the freshly computed output-layer
error is used and `delta_in` is left unchanged; at `t_ > 0` the error is
pushed once more through `Uᵀ` and the sigmoid gradient. -/
def bpttInner (x : List ℕ) (s : List (Vec h)) (t : ℤ) :
    List ℕ → RNN v h o → Vec h → Option (RNN v h o × Vec h)
  | [], m, delta_in => some (m, delta_in)
  | t_ :: ts_, m, delta_in => do
    let xt ← pyIdx x (t - t_)
    let one_hot_xt ← make_onehot xt v
    let stt ← pyIdx s (t - t_)
    let delta_in_T : Vec h := fun i => matVec (transposeQ m.U) delta_in i * grad stt i
    if t_ = 0 then do
      let sPrev ← pyIdx s (t - 1)
      bpttInner x s t ts_
        { m with
          deltaV := m.deltaV + outerQ delta_in one_hot_xt,
          deltaU := m.deltaU + outerQ delta_in sPrev }
        delta_in
    else do
      let sPrev ← pyIdx s (t - t_ - 1)
      bpttInner x s t ts_
        { m with
          deltaV := m.deltaV + outerQ delta_in_T one_hot_xt,
          deltaU := m.deltaU + outerQ delta_in_T sPrev }
        delta_in_T

/-- Outer loop body of `RNN.acc_deltas_bptt` (rnn.py lines 150-171):
for each `t` (the source iterates `reversed(range(len(x)))`) the output
layer error is accumulated into `deltaW` by `+=`, then the inner loop
runs over `range(steps+1)` — with no clamping to the available history. -/
def accDeltasBpttLoop (x d : List ℕ) (y : List (Vec o)) (s : List (Vec h)) (steps : ℕ) :
    List ℕ → RNN v h o → Option (RNN v h o)
  | [], m => some m
  | t :: ts, m => do
    let dt ← pyIdx d t
    let one_hot_dt ← make_onehot dt o
    let yt ← pyIdx y t
    let delta_out : Vec o := one_hot_dt - yt
    let st ← pyIdx s t
    let delta_in : Vec h := fun i => matVec (transposeQ m.W) delta_out i * grad st i
    let (m', _) ← bpttInner x s t (List.range (steps + 1))
      { m with deltaW := m.deltaW + outerQ delta_out st } delta_in
    accDeltasBpttLoop x d y s steps ts m'

/-- `RNN.acc_deltas_bptt` (rnn.py lines 133-171): truncated BPTT over the
whole sequence. -/
def acc_deltas_bptt (m : RNN v h o) (x d : List ℕ) (y : List (Vec o)) (s : List (Vec h))
    (steps : ℕ) : Option (RNN v h o) :=
  accDeltasBpttLoop x d y s steps (List.range x.length).reverse m

/-- The raw indices at which `RNN.acc_deltas_bptt` reads the input
sequence `x` (rnn.py line 159, `x[t-t_]`): the outer loop runs `t` over
`reversed(range(len(x)))` (line 150) and the inner loop runs `t_` over
`range(steps+1)` (line 158), so the loop nest reads `x` at every raw
index `t - t_`. -/
def bpttXReadIdx (T steps : ℕ) : List ℤ :=
  (List.range T).reverse.flatMap fun t =>
    (List.range (steps + 1)).map fun t_ => (t : ℤ) - (t_ : ℤ)

/-- The inner-loop iteration list of `RNN.acc_deltas_bptt_np`
(rnn.py line 198): `for t_ in range(min(steps+1, t))` with
`t = len(x)-1`. -/
def bpttNpInnerIters (x : List ℕ) (steps : ℕ) : List ℕ :=
  List.range (min ((steps : ℤ) + 1) ((x.length : ℤ) - 1)).toNat

/-- `RNN.acc_deltas_bptt_np` (rnn.py lines 173-221): single-label
truncated BPTT at the final timestep; `deltaW` is assigned (`=`), while
the inner loop accumulates (`+=`) into `deltaV` and `deltaU`, clamped to
`min(steps+1, t)` iterations. -/
def acc_deltas_bptt_np (m : RNN v h o) (x d : List ℕ) (y : List (Vec o)) (s : List (Vec h))
    (steps : ℕ) : Option (RNN v h o) :=
  let t : ℤ := (x.length : ℤ) - 1
  do
  let d0 ← pyIdx d 0
  let one_hot_dt ← make_onehot d0 o
  let yt ← pyIdx y t
  let delta_out : Vec o := one_hot_dt - yt
  let st ← pyIdx s t
  let delta_in : Vec h := fun i => matVec (transposeQ m.W) delta_out i * grad st i
  let (m', _) ← bpttInner x s t (bpttNpInnerIters x steps)
    { m with deltaW := outerQ delta_out st } delta_in
  some m'

end RNN

namespace Runner

/-- The two gradient-accumulation paths a training instance can be routed
to. -/
inductive BPMethod where
  | standard
  | bptt
deriving DecidableEq

/-- The per-instance routing decision of `Runner.train` (runner.py lines
188-191): `if back_steps == 0` use `acc_deltas`, `else` use
`acc_deltas_bptt`. -/
def train_method (back_steps : ℤ) : BPMethod :=
  if back_steps = 0 then .standard else .bptt

/-- The per-instance routing decision of `Runner.train_np` (runner.py
lines 328-331): `if back_steps == 0` use `acc_deltas_np`, `else` use
`acc_deltas_bptt_np`. -/
def train_np_method (back_steps : ℤ) : BPMethod :=
  if back_steps = 0 then .standard else .bptt

/-- The learning rate used in (zero-based) epoch `epoch` of
`Runner.train` (runner.py lines 161-164): `a0 / ((epoch + 0.0 + anneal) /
anneal)` when `anneal > 0`, else the initial rate `a0`. -/
def train_learning_rate (a0 anneal : ℚ) (epoch : ℕ) : ℚ :=
  if anneal > 0 then a0 / (((epoch : ℚ) + 0 + anneal) / anneal) else a0

/-- The learning rate used in (zero-based) epoch `epoch` of
`Runner.train_np` (runner.py lines 301-304), same formula as in
`Runner.train`. -/
def train_np_learning_rate (a0 anneal : ℚ) (epoch : ℕ) : ℚ :=
  if anneal > 0 then a0 / (((epoch : ℚ) + 0 + anneal) / anneal) else a0

/-- The epoch loop of `Runner.train` (runner.py lines 150-223), reduced
to its early-stopping skeleton.  `L e` is the dev-set loss measured at the
end of epoch `e` (the numeric outcome of an epoch of gradient descent,
supplied as an oracle), `n` the number of epochs still allowed, `e` the
current epoch index, `prev` the variable `prev_loss` and `cnt` the
variable `min_change_count`.  Returns how many epochs actually run: each
epoch runs in full, then `min_change_count` is updated (`+= 1` if
`abs(prev_loss - loss) < min_change`, else reset to `0`) and the loop
breaks when it exceeds `2`. -/
def trainLoop (L : ℕ → ℚ) (min_change : ℚ) : ℕ → ℕ → ℚ → ℤ → ℕ
  | 0, _, _, _ => 0
  | n + 1, e, prev, cnt =>
    let loss := L e
    let cnt' : ℤ := if |prev - loss| < min_change then cnt + 1 else 0
    if cnt' > 2 then 1 else 1 + trainLoop L min_change n (e + 1) loss cnt'

/-- Number of epochs executed by `Runner.train` (runner.py lines
150-223): the loop starts at epoch `0` with `prev_loss = initial_loss`
and `min_change_count = -1`. -/
def train_epochsRun (L : ℕ → ℚ) (initial_loss min_change : ℚ) (epochs : ℕ) : ℕ :=
  trainLoop L min_change epochs 0 initial_loss (-1)

/-- Number of epochs executed by `Runner.train_np` (runner.py lines
290-366); its epoch loop, loss-plateau counter and break condition are
line-for-line the same as in `Runner.train`. -/
def train_np_epochsRun (L : ℕ → ℚ) (initial_loss min_change : ℚ) (epochs : ℕ) : ℕ :=
  trainLoop L min_change epochs 0 initial_loss (-1)

/-- `numpy.dot` on two one-dimensional arrays: fails (ValueError) unless
the lengths agree, else returns `Σ a_i * b_i`. -/
def npDot {a b : ℕ} (u : Vec a) (w : Vec b) : Option ℚ :=
  if hab : a = b then some (∑ i, u i * w (Fin.cast hab i)) else none

/-- Loop body of `Runner.compute_loss` (runner.py lines 44-47) over the
timestep list `ts`: `loss -= np.dot(make_onehot(d[t], vocab_size),
np.log(y[t]))`, with `np.log` abstracted as the parameter `logF`. -/
def computeLossLoop (vsz : ℕ) {o : ℕ} (logF : ℚ → ℚ) (d : List ℕ) (y : List (Vec o)) :
    List ℕ → ℚ → Option ℚ
  | [], loss => some loss
  | t :: ts, loss => do
    let dt ← pyIdx d t
    let y_true ← make_onehot dt vsz
    let yt ← pyIdx y t
    let log_y_pred : Vec o := fun i => logF (yt i)
    let dp ← npDot y_true log_y_pred
    computeLossLoop vsz logF d y ts (loss - dp)

/-- `Runner.compute_loss` (runner.py lines 31-48): predicts `y` for `x`,
then sums `-dot(onehot(d[t], vocab_size), log y[t])` over all timesteps.
Note the one-hot size is the model's input `vocab_size` (the first
dimension parameter `v`), not the output vocabulary size `o`. -/
def compute_loss {v h o : ℕ} (logF expF : ℚ → ℚ) (m : RNN v h o) (x d : List ℕ) :
    Option ℚ := do
  let (y, _, _) ← m.predict expF x
  computeLossLoop v logF d y (List.range x.length) 0

/-- `Runner.compute_loss_np` (runner.py lines 50-67): predicts `y` for
`x` and returns `-dot(onehot(d[0], vocab_size), log y[len(x)-1])`.  As in
`compute_loss`, the one-hot is built with the input `vocab_size`. -/
def compute_loss_np {v h o : ℕ} (logF expF : ℚ → ℚ) (m : RNN v h o) (x d : List ℕ) :
    Option ℚ := do
  let (y, _, _) ← m.predict expF x
  let t : ℤ := (x.length : ℤ) - 1
  let yt ← pyIdx y t
  let log_y_pred : Vec o := fun i => logF (yt i)
  let d0 ← pyIdx d 0
  let one_hot_dt ← make_onehot d0 v
  let dp ← npDot one_hot_dt log_y_pred
  some (0 - dp)

/-- The value of `min_change_count` after (zero-based) epoch `e` of the
epoch loop of `Runner.train` / `Runner.train_np`, as a direct recursion:
after the first epoch it is `0` whatever the loss change (the counter
starts at `-1` and either increments to `0` or is reset to `0`), and
after a later epoch it increments on a below-threshold loss change and
resets to `0` otherwise. -/
def countAt (L : ℕ → ℚ) (initial_loss min_change : ℚ) : ℕ → ℤ
  | 0 => 0
  | e + 1 =>
    if |L e - L (e + 1)| < min_change then countAt L initial_loss min_change e + 1
    else 0

/-- Index of the first counter value exceeding `2`, if any: the epoch at
whose end the loop of `Runner.train` / `Runner.train_np` breaks. -/
def firstStopIdx : List ℤ → Option ℕ
  | [] => none
  | c :: cs => if 2 < c then some 0 else (firstStopIdx cs).map (· + 1)


end Runner

/-! ## Concrete fixtures used by individual claims -/

/-- A concrete `RNN 2 1 2` model with zeroed accumulators, for C1. -/
def fixC1Model : RNN 2 1 2 := ⟨fun _ _ => 1, fun _ _ => 1, fun _ _ => 1, 0, 0, 0⟩

/-- A concrete output trace for C1 (two timesteps). -/
def fixC1Y : List (Vec 2) := [fun _ => (1 : ℚ)/4, fun _ => (1 : ℚ)/4]

/-- A concrete hidden trace for C1 (two timesteps plus the zero row). -/
def fixC1S : List (Vec 1) := [fun _ => (1 : ℚ)/2, fun _ => (1 : ℚ)/3, fun _ => 0]

/-- A concrete `RNN 1 1 1` model with zeroed accumulators, for C2. -/
def fixC2Model : RNN 1 1 1 := ⟨fun _ _ => 1, fun _ _ => 1, fun _ _ => 1, 0, 0, 0⟩

/-- A concrete output trace for C2. -/
def fixC2Y : List (Vec 1) := [fun _ => 0, fun _ => (1 : ℚ)/2]

/-- A concrete hidden trace for C2. -/
def fixC2S : List (Vec 1) := [fun _ => (1 : ℚ)/2, fun _ => (1 : ℚ)/2, fun _ => 0]

/-- A concrete `RNN 1 1 1` model with zeroed accumulators, for C9. -/
def fixC9Model : RNN 1 1 1 := ⟨fun _ _ => 1, fun _ _ => 1, fun _ _ => 1, 0, 0, 0⟩

/-- A concrete one-timestep output trace for C9. -/
def fixC9Y : List (Vec 1) := [fun _ => 0]

/-- A concrete hidden trace for C9 (one timestep plus the zero row). -/
def fixC9S : List (Vec 1) := [fun _ => (1 : ℚ)/2, fun _ => 0]

/-- A concrete `RNN 1 1 1` model with nonzero accumulators, for the C2
witness. -/
def fixC2bM : RNN 1 1 1 :=
  ⟨fun _ _ => 1, fun _ _ => 1, fun _ _ => 1, fun _ _ => 3, fun _ _ => 5, fun _ _ => 7⟩

/-- The model produced by `acc_deltas_np fixC2bM [0] [0] [fun _ => 0]
[fun _ => 1/2, fun _ => 0]`, for the C2 witness. -/
def fixC2bM1 : RNN 1 1 1 :=
  ⟨fun _ _ => 1, fun _ _ => 1, fun _ _ => 1, fun _ _ => 0, fun _ _ => (1 : ℚ)/4,
   fun _ _ => (1 : ℚ)/2⟩

/-- `r` with its `deltaV`/`deltaU` rebased from `base`'s accumulators
onto `DV`/`DU`; used to state that the BPTT inner loop adds the same
increment whatever the accumulators held before. -/
def RNN.shiftDeltas {v h o : ℕ} (DV : Mat h v) (DU : Mat h h) (base r : RNN v h o) :
    RNN v h o :=
  { r with
    deltaV := DV + (r.deltaV - base.deltaV),
    deltaU := DU + (r.deltaU - base.deltaU) }

/-- The output-layer error `one-hot(d[t]) - y[t]` at timestep `t`, used
to state the closed form of the accumulation loops. -/
def deltaOutAt {o : ℕ} (d : List ℕ) (y : List (Vec o)) (t : ℕ) : Vec o :=
  oneHotT (d.getD t 0) o - y.getD t 0

/-- The hidden-layer error signal at timestep `t`: the output error
pushed through `Wᵀ` and multiplied by the sigmoid gradient at `s[t]`. -/
def deltaInAt {h o : ℕ} (W : Mat o h) (d : List ℕ) (y : List (Vec o))
    (s : List (Vec h)) (t : ℕ) : Vec h :=
  fun i => matVec (transposeQ W) (deltaOutAt d y t) i * grad (s.getD t 0) i

/-- The hidden state read as `s[t-1]`: at `t = 0` Python's `s[-1]` wraps
to the last row of the trace (the zero row for traces from `predict`). -/
def sPrevAt {h : ℕ} (s : List (Vec h)) (t : ℕ) : Vec h :=
  if t = 0 then s.getD (s.length - 1) 0 else s.getD (t - 1) 0

/-- A concrete `RNN 1 1 1` model with accumulators holding `1`, for the
C4 witness. -/
def fixC4M : RNN 1 1 1 :=
  ⟨fun _ _ => 1, fun _ _ => 1, fun _ _ => 1, fun _ _ => 1, fun _ _ => 1, fun _ _ => 1⟩

/-- A concrete `RNN 1 1 1` model for the C5 witness. -/
def fixC5M : RNN 1 1 1 := ⟨fun _ _ => 1, fun _ _ => 1, fun _ _ => 1, 0, 0, 0⟩

/-- Entry `i` of a vector, `0` out of range; used to state loss values. -/
def vecAt {n : ℕ} (w : Vec n) (i : ℕ) : ℚ :=
  if hi : i < n then w ⟨i, hi⟩ else 0

/-- A concrete model with `vocab_size = 2` and `out_vocab_size = 3`, for
C10's dimension-mismatch conjuncts. -/
def fixC10M : RNN 2 1 3 := ⟨fun _ _ => 1, fun _ _ => 1, fun _ _ => 1, 0, 0, 0⟩

/-- A concrete square `RNN 1 1 1` model for the C10 witness. -/
def fixC10w : RNN 1 1 1 := ⟨fun _ _ => 1, fun _ _ => 1, fun _ _ => 1, 0, 0, 0⟩

/-! ## Claims -/

/-- Python indexing at a nonnegative index is plain list lookup. -/
theorem pyIdx_natCast {α : Type} (l : List α) (t : ℕ) : pyIdx l (t : ℤ) = l.get? t := by
  unfold pyIdx
  simp [show ¬((t : ℤ) < 0) from by omega]

/-- In-range list lookup, phrased with a default. -/
theorem get?_eq_some_getD {α : Type} (l : List α) (t : ℕ) (d₀ : α) (ht : t < l.length) :
    l.get? t = some (l.getD t d₀) := by
  simp [List.get?_eq_getElem?, List.getElem?_eq_getElem ht, List.getD_eq_getElem?_getD]

/-- Python indexing at `-1` wraps to the last element. -/
theorem pyIdx_neg_one {α : Type} (l : List α) (hl : l ≠ []) (d₀ : α) :
    pyIdx l (-1) = some (l.getD (l.length - 1) d₀) := by
  have h0 : 0 < l.length := List.length_pos.mpr hl
  unfold pyIdx
  rw [if_pos (show (-1 : ℤ) < 0 from by norm_num),
    if_pos (show (0 : ℤ) ≤ -1 + l.length from by omega),
    show ((-1 : ℤ) + l.length).toNat = l.length - 1 from by omega,
    get?_eq_some_getD l (l.length - 1) d₀ (by omega)]

/-- `make_onehot` succeeds exactly on in-range indices, with value
`oneHotT`. -/
theorem make_onehot_lt {i n : ℕ} (h : i < n) : make_onehot i n = some (oneHotT i n) := by
  unfold make_onehot oneHotT
  rw [if_pos h]

/-- **C1** (code bug).  The claim states that the inner unrolling loop of
`acc_deltas_bptt` clamps the lookback to the available history and never
reads `x` or `s` before position 0 of the sequence.  The code (rnn.py
line 158) runs the inner loop over `range(steps+1)` irrespective of `t`,
so for `x` of length 2 and `steps = 2` it reads `x[t-t_]` at the raw
index `-1`, which Python silently wraps to the last element (`pyIdx l
(-1) = some` of the last entry) instead of clamping; the call completes
without error on such an input. -/
theorem RNN.C1_bptt_reads_before_sequence_start :
    ((-1 : ℤ) ∈ RNN.bpttXReadIdx 2 2) ∧
    pyIdx ([10, 20] : List ℕ) (-1) = some 20 ∧
    (RNN.acc_deltas_bptt fixC1Model [0, 1] [0, 0] fixC1Y fixC1S 2).isSome = true := by
  refine ⟨by decide, by decide, by decide⟩

/-- **C2** (counterexample).  Calling `acc_deltas_bptt_np` twice in a row
with the same inputs does not leave `deltaV` in the state produced by a
single call: on a length-2 sequence the inner loop accumulates (`+=`)
into `deltaV`, so the second call adds on top of the first. -/
theorem RNN.C2_bptt_np_twice_ne_once_counterexample :
    ((RNN.acc_deltas_bptt_np fixC2Model [0, 0] [0] fixC2Y fixC2S 1).bind
        (fun r => RNN.acc_deltas_bptt_np r [0, 0] [0] fixC2Y fixC2S 1)).map
        (fun r => r.deltaV 0 0) ≠
      (RNN.acc_deltas_bptt_np fixC2Model [0, 0] [0] fixC2Y fixC2S 1).map
        (fun r => r.deltaV 0 0) := by
  norm_num [RNN.acc_deltas_bptt_np, RNN.bpttInner, RNN.bpttNpInnerIters, pyIdx, make_onehot,
    fixC2Model, fixC2Y, fixC2S, outerQ, matVec, transposeQ, grad,
    List.range_succ, Fin.sum_univ_one, Option.bind]

/-- The inner unrolling loop updates `deltaV`/`deltaU` by pure addition:
running it on a model whose `deltaV`/`deltaU` have been replaced by
`DV`/`DU` yields the same result with the increments rebased onto
`DV`/`DU`; all other fields and the final error vector are unchanged. -/
theorem RNN.bpttInner_shift {v h o : ℕ} (x : List ℕ) (s : List (Vec h)) (t : ℤ) :
    ∀ (ts_ : List ℕ) (m : RNN v h o) (dlt : Vec h) (DV : Mat h v) (DU : Mat h h),
      RNN.bpttInner x s t ts_ { m with deltaV := DV, deltaU := DU } dlt =
        (RNN.bpttInner x s t ts_ m dlt).map
          (fun p => (RNN.shiftDeltas DV DU m p.1, p.2)) := by
  intro ts_
  induction ts_ with
  | nil =>
    intro m dlt DV DU
    simp only [RNN.bpttInner, Option.map_some']
    refine congrArg some (Prod.ext ?_ rfl)
    unfold RNN.shiftDeltas
    ext <;> (try rfl) <;> (try simp)
  | cons t_ ts_ ih =>
    intro m dlt DV DU
    simp only [RNN.bpttInner]
    cases hxt : pyIdx x (t - t_) with
    | none => simp
    | some xt =>
    simp only [Option.bind_eq_bind', Option.some_bind]
    cases hoh : make_onehot xt v with
    | none => simp
    | some one_hot_xt =>
    simp only [Option.bind_eq_bind', Option.some_bind]
    cases hst : pyIdx s (t - t_) with
    | none => simp
    | some stt =>
    simp only [Option.bind_eq_bind', Option.some_bind]
    by_cases ht_ : t_ = 0
    · simp only [ht_, if_true]
      cases hsp : pyIdx s (t - 1) with
      | none => simp
      | some sPrev =>
      simp only [Option.bind_eq_bind', Option.some_bind]
      rw [show ({ m with deltaV := DV, deltaU := DU } : RNN v h o).deltaV + outerQ dlt one_hot_xt
            = DV + outerQ dlt one_hot_xt from rfl,
          show ({ m with deltaV := DV, deltaU := DU } : RNN v h o).deltaU + outerQ dlt sPrev
            = DU + outerQ dlt sPrev from rfl]
      rw [show ({ m with
                  deltaV := DV + outerQ dlt one_hot_xt,
                  deltaU := DU + outerQ dlt sPrev } : RNN v h o)
            = { ({ m with
                   deltaV := m.deltaV + outerQ dlt one_hot_xt,
                   deltaU := m.deltaU + outerQ dlt sPrev } : RNN v h o) with
                deltaV := DV + outerQ dlt one_hot_xt,
                deltaU := DU + outerQ dlt sPrev } from rfl]
      rw [ih]
      cases hrec : RNN.bpttInner x s t ts_
          ({ m with
             deltaV := m.deltaV + outerQ dlt one_hot_xt,
             deltaU := m.deltaU + outerQ dlt sPrev }) dlt with
      | none => simp
      | some p =>
      simp only [Option.map_some', Option.some.injEq]
      refine Prod.ext ?_ rfl
      unfold RNN.shiftDeltas
      ext <;> (try rfl) <;> (try simp) <;> (try abel)
    · simp only [ht_, if_false]
      cases hsp : pyIdx s (t - t_ - 1) with
      | none => simp
      | some sPrev =>
      simp only [Option.bind_eq_bind', Option.some_bind]
      rw [show ({ m with deltaV := DV, deltaU := DU } : RNN v h o).deltaV +
              outerQ (fun i => matVec (transposeQ m.U) dlt i * grad stt i) one_hot_xt
            = DV + outerQ (fun i => matVec (transposeQ m.U) dlt i * grad stt i) one_hot_xt
            from rfl,
          show ({ m with deltaV := DV, deltaU := DU } : RNN v h o).deltaU +
              outerQ (fun i => matVec (transposeQ m.U) dlt i * grad stt i) sPrev
            = DU + outerQ (fun i => matVec (transposeQ m.U) dlt i * grad stt i) sPrev
            from rfl]
      rw [show ({ m with
                  deltaV := DV + outerQ (fun i => matVec (transposeQ m.U) dlt i * grad stt i)
                    one_hot_xt,
                  deltaU := DU + outerQ (fun i => matVec (transposeQ m.U) dlt i * grad stt i)
                    sPrev } : RNN v h o)
            = { ({ m with
                   deltaV := m.deltaV +
                     outerQ (fun i => matVec (transposeQ m.U) dlt i * grad stt i) one_hot_xt,
                   deltaU := m.deltaU +
                     outerQ (fun i => matVec (transposeQ m.U) dlt i * grad stt i) sPrev } :
                     RNN v h o) with
                deltaV := DV + outerQ (fun i => matVec (transposeQ m.U) dlt i * grad stt i)
                  one_hot_xt,
                deltaU := DU + outerQ (fun i => matVec (transposeQ m.U) dlt i * grad stt i)
                  sPrev } from rfl]
      rw [ih]
      cases hrec : RNN.bpttInner x s t ts_
          ({ m with
             deltaV := m.deltaV +
               outerQ (fun i => matVec (transposeQ m.U) dlt i * grad stt i) one_hot_xt,
             deltaU := m.deltaU +
               outerQ (fun i => matVec (transposeQ m.U) dlt i * grad stt i) sPrev })
          (fun i => matVec (transposeQ m.U) dlt i * grad stt i) with
      | none => simp
      | some p =>
      simp only [Option.map_some', Option.some.injEq]
      refine Prod.ext ?_ rfl
      unfold RNN.shiftDeltas
      ext <;> (try rfl) <;> (try simp) <;> (try abel)

/-- `acc_deltas_np` reads the model only through its weight matrices:
models with equal `U`, `V`, `W` yield equal results. -/
theorem RNN.acc_deltas_np_eq_of_params {v h o : ℕ} (m n : RNN v h o)
    (hU : m.U = n.U) (hV : m.V = n.V) (hW : m.W = n.W) (x d : List ℕ)
    (y : List (Vec o)) (s : List (Vec h)) :
    RNN.acc_deltas_np m x d y s = RNN.acc_deltas_np n x d y s := by
  obtain ⟨mU, mV, mW, mdU, mdV, mdW⟩ := m
  obtain ⟨nU, nV, nW, ndU, ndV, ndW⟩ := n
  obtain rfl : mU = nU := hU
  obtain rfl : mV = nV := hV
  obtain rfl : mW = nW := hW
  rfl

/-- A successful `acc_deltas_np` call leaves the weight matrices
untouched. -/
theorem RNN.acc_deltas_np_params {v h o : ℕ} {m m' : RNN v h o} {x d : List ℕ}
    {y : List (Vec o)} {s : List (Vec h)}
    (hr : RNN.acc_deltas_np m x d y s = some m') :
    m'.U = m.U ∧ m'.V = m.V ∧ m'.W = m.W := by
  simp only [RNN.acc_deltas_np, Option.bind_eq_bind', Option.bind_eq_some,
    Option.some.injEq] at hr
  obtain ⟨d0, -, oh, -, yt, -, st, -, xt, -, ohx, -, sp, -, hm'⟩ := hr
  subst hm'
  exact ⟨rfl, rfl, rfl⟩

/-- `RNN.bpttInner_shift`, restated on an explicit constructor so it can
be used as a rewrite rule. -/
theorem RNN.bpttInner_shift_mk {v h o : ℕ} (x : List ℕ) (s : List (Vec h)) (t : ℤ)
    (ts_ : List ℕ) (U : Mat h h) (V : Mat h v) (W : Mat o h)
    (dU DU : Mat h h) (dV DV : Mat h v) (dW : Mat o h) (dlt : Vec h) :
    RNN.bpttInner x s t ts_ (RNN.mk U V W DU DV dW) dlt =
      (RNN.bpttInner x s t ts_ (RNN.mk U V W dU dV dW) dlt).map
        (fun p => (RNN.shiftDeltas DV DU (RNN.mk U V W dU dV dW) p.1, p.2)) :=
  RNN.bpttInner_shift x s t ts_ (RNN.mk U V W dU dV dW) dlt DV DU

/-- `acc_deltas_bptt_np` first overwrites `deltaW` (so the result never
depends on the incoming `deltaW`), then adds into `deltaV`/`deltaU`:
replacing the incoming accumulators by `DU`/`DV`/`DW` rebases the
resulting `deltaV`/`deltaU` and leaves everything else unchanged. -/
theorem RNN.acc_deltas_bptt_np_shift {v h o : ℕ} (m : RNN v h o)
    (DU : Mat h h) (DV : Mat h v) (DW : Mat o h) (x d : List ℕ)
    (y : List (Vec o)) (s : List (Vec h)) (steps : ℕ) :
    RNN.acc_deltas_bptt_np { m with deltaU := DU, deltaV := DV, deltaW := DW } x d y s steps =
      (RNN.acc_deltas_bptt_np m x d y s steps).map (RNN.shiftDeltas DV DU m) := by
  unfold RNN.acc_deltas_bptt_np
  cases hd0 : pyIdx d 0 with
  | none => simp
  | some d0 =>
  simp only [Option.bind_eq_bind', Option.some_bind]
  cases hoh : make_onehot d0 o with
  | none => simp
  | some one_hot_dt =>
  simp only [Option.some_bind]
  cases hyt : pyIdx y ((x.length : ℤ) - 1) with
  | none => simp
  | some yt =>
  simp only [Option.some_bind]
  cases hst : pyIdx s ((x.length : ℤ) - 1) with
  | none => simp
  | some st =>
  simp only [Option.some_bind]
  have key := RNN.bpttInner_shift_mk x s ((x.length : ℤ) - 1) (RNN.bpttNpInnerIters x steps)
      m.U m.V m.W m.deltaU DU m.deltaV DV (outerQ (one_hot_dt - yt) st)
      (fun i => matVec (transposeQ m.W) (one_hot_dt - yt) i * grad st i)
  rw [key]
  cases hrec : RNN.bpttInner x s ((x.length : ℤ) - 1) (RNN.bpttNpInnerIters x steps)
      (RNN.mk m.U m.V m.W m.deltaU m.deltaV (outerQ (one_hot_dt - yt) st))
      (fun i => matVec (transposeQ m.W) (one_hot_dt - yt) i * grad st i) with
  | none => simp
  | some p =>
  simp only [Option.map_some', Option.some_bind]
  rfl

/-- **C2** (amended).  `acc_deltas_np` overwrites: two calls in a row
leave the accumulators exactly as a single call with the second call's
inputs, independent of prior contents.  `acc_deltas_bptt_np` overwrites
only `deltaW`; its inner loop adds (`+=`) into `deltaV` and `deltaU`, so
the result on accumulators `DU`/`DV`/`DW` equals the result on the
original accumulators with the `deltaV`/`deltaU` increments rebased onto
`DV`/`DU` (in particular the increment, and the final `deltaW`, are
independent of the prior contents, but the final `deltaV`/`deltaU` are
not). -/
theorem RNN.C2_single_label_overwrite_amended {v h o : ℕ} :
    (∀ (m m1 : RNN v h o) (x1 d1 : List ℕ) (y1 : List (Vec o)) (s1 : List (Vec h))
        (x2 d2 : List ℕ) (y2 : List (Vec o)) (s2 : List (Vec h)),
        RNN.acc_deltas_np m x1 d1 y1 s1 = some m1 →
        RNN.acc_deltas_np m1 x2 d2 y2 s2 = RNN.acc_deltas_np m x2 d2 y2 s2) ∧
    (∀ (m : RNN v h o) (DU : Mat h h) (DV : Mat h v) (DW : Mat o h)
        (x d : List ℕ) (y : List (Vec o)) (s : List (Vec h)) (steps : ℕ),
        RNN.acc_deltas_bptt_np { m with deltaU := DU, deltaV := DV, deltaW := DW }
            x d y s steps =
          (RNN.acc_deltas_bptt_np m x d y s steps).map (RNN.shiftDeltas DV DU m)) := by
  constructor
  · intro m m1 x1 d1 y1 s1 x2 d2 y2 s2 h1
    obtain ⟨hU, hV, hW⟩ := RNN.acc_deltas_np_params h1
    exact RNN.acc_deltas_np_eq_of_params m1 m hU hV hW x2 d2 y2 s2
  · intro m DU DV DW x d y s steps
    exact RNN.acc_deltas_bptt_np_shift m DU DV DW x d y s steps

/-- Witness for the amended C2 on concrete data: `fixC2bM1` is the result
of a first `acc_deltas_np` call on `fixC2bM`, and a second call on it
agrees with a single call on `fixC2bM`. -/
theorem RNN.C2_single_label_overwrite_amended_witness :
    RNN.acc_deltas_np fixC2bM1 [0, 0] [0] [fun _ => (1 : ℚ)/3, fun _ => (1 : ℚ)/5]
        [fun _ => (1 : ℚ)/7, fun _ => (1 : ℚ)/2, fun _ => 0] =
      RNN.acc_deltas_np fixC2bM [0, 0] [0] [fun _ => (1 : ℚ)/3, fun _ => (1 : ℚ)/5]
        [fun _ => (1 : ℚ)/7, fun _ => (1 : ℚ)/2, fun _ => 0] :=
  RNN.C2_single_label_overwrite_amended.1 fixC2bM fixC2bM1 [0] [0] [fun _ => 0]
    [fun _ => (1 : ℚ)/2, fun _ => 0] [0, 0] [0]
    [fun _ => (1 : ℚ)/3, fun _ => (1 : ℚ)/5]
    [fun _ => (1 : ℚ)/7, fun _ => (1 : ℚ)/2, fun _ => 0]
    (by
      refine congrArg some ?_
      norm_num [RNN.acc_deltas_np, pyIdx, make_onehot, outerQ, matVec, transposeQ, grad,
        Fin.sum_univ_one, fixC2bM, fixC2bM1]
      refine ⟨?_, ?_, ?_⟩ <;> funext i j <;> norm_num [outerQ, Pi.sub_apply])

/-- **C3** (counterexample).  The claim states every `back_steps < 2`
routes to standard backprop; but the code tests `back_steps == 0`
(runner.py lines 188, 328), so `back_steps = 1 < 2` is routed to the
BPTT method in both `train` and `train_np`. -/
theorem Runner.C3_back_steps_one_routes_to_bptt :
    (1 : ℤ) < 2 ∧ Runner.train_method 1 = Runner.BPMethod.bptt ∧
      Runner.train_np_method 1 = Runner.BPMethod.bptt := by
  decide

/-- **C3** (amended).  In `train` and `train_np` a training instance is
routed to the standard backprop method exactly when `back_steps = 0`, and
to the BPTT method exactly when `back_steps ≠ 0` (in particular
`back_steps = 1` uses BPTT); the two routines use the same test. -/
theorem Runner.C3_routing_amended (b : ℤ) :
    (Runner.train_method b = Runner.BPMethod.standard ↔ b = 0) ∧
    (Runner.train_method b = Runner.BPMethod.bptt ↔ b ≠ 0) ∧
    Runner.train_np_method b = Runner.train_method b := by
  by_cases hb : b = 0 <;>
    simp [Runner.train_method, Runner.train_np_method, hb]

/-- Closed form of the `acc_deltas` loop over any in-range timestep
list: each accumulator gains the sum of that timestep's outer product;
no term involves `U`. -/
theorem RNN.accDeltasLoop_closed {v h o : ℕ} (x d : List ℕ) (y : List (Vec o))
    (s : List (Vec h)) (hdlen : x.length ≤ d.length) (hylen : x.length ≤ y.length)
    (hslen : s.length = x.length + 1)
    (hdv : ∀ t < x.length, d.getD t 0 < o) (hxv : ∀ t < x.length, x.getD t 0 < v) :
    ∀ (ts : List ℕ) (m : RNN v h o), (∀ t ∈ ts, t < x.length) →
      RNN.accDeltasLoop x d y s ts m = some { m with
        deltaW := m.deltaW +
          (ts.map (fun t => outerQ (deltaOutAt d y t) (s.getD t 0))).sum,
        deltaV := m.deltaV +
          (ts.map (fun t => outerQ (deltaInAt m.W d y s t) (oneHotT (x.getD t 0) v))).sum,
        deltaU := m.deltaU +
          (ts.map (fun t => outerQ (deltaInAt m.W d y s t) (sPrevAt s t))).sum } := by
  intro ts
  induction ts with
  | nil =>
    intro m _
    simp only [RNN.accDeltasLoop, List.map_nil, List.sum_nil]
    refine congrArg some ?_
    ext <;> (try rfl) <;> (try simp)
  | cons t ts' ih =>
    intro m hts
    have htx : t < x.length := hts t (List.mem_cons_self t ts')
    simp only [RNN.accDeltasLoop]
    rw [pyIdx_natCast d t, get?_eq_some_getD d t 0 (lt_of_lt_of_le htx hdlen)]
    simp only [Option.bind_eq_bind', Option.some_bind]
    rw [make_onehot_lt (hdv t htx)]
    simp only [Option.some_bind]
    rw [pyIdx_natCast y t, get?_eq_some_getD y t 0 (lt_of_lt_of_le htx hylen)]
    simp only [Option.some_bind]
    rw [pyIdx_natCast s t, get?_eq_some_getD s t 0 (by omega)]
    simp only [Option.some_bind]
    rw [pyIdx_natCast x t, get?_eq_some_getD x t 0 htx]
    simp only [Option.some_bind]
    rw [make_onehot_lt (hxv t htx)]
    simp only [Option.some_bind]
    have hsprev : pyIdx s ((t : ℤ) - 1) = some (sPrevAt s t) := by
      cases t with
      | zero =>
        rw [show (((0 : ℕ) : ℤ) - 1) = -1 from by norm_num,
          pyIdx_neg_one s (by intro hnil; rw [hnil] at hslen; simp at hslen) 0]
        simp [sPrevAt]
      | succ t' =>
        rw [show (((t' + 1 : ℕ) : ℤ) - 1) = ((t' : ℕ) : ℤ) from by push_cast; ring,
          pyIdx_natCast s t', get?_eq_some_getD s t' 0 (by omega)]
        simp [sPrevAt]
    rw [hsprev]
    simp only [Option.some_bind]
    rw [ih _ (fun u hu => hts u (List.mem_cons_of_mem t hu))]
    refine congrArg some ?_
    ext i j <;>
      simp [deltaOutAt, deltaInAt, List.map_cons, List.sum_cons, Pi.add_apply, outerQ] <;>
      ring

/-- **C4** (confirmed).  `acc_deltas` iterates over all timesteps (the
source in reverse order; the accumulated sums are order-independent) and
adds — never assigns — into the accumulators: `deltaW` gains
`Σ_t outer(one-hot(d[t]) - y[t], s[t])`; the hidden error at `t` is
`Wᵀ(one-hot(d[t]) - y[t]) ⊙ grad(s[t])`; `deltaV` gains its outer
product with `one-hot(x[t])` and `deltaU` with `s[t-1]`.  No term
involves the hidden-to-hidden matrix `U`: the hidden error is never
propagated back through `Uᵀ` to earlier timesteps. -/
theorem RNN.C4_acc_deltas_closed_form {v h o : ℕ} (m : RNN v h o) (x d : List ℕ)
    (y : List (Vec o)) (s : List (Vec h))
    (hdlen : x.length ≤ d.length) (hylen : x.length ≤ y.length)
    (hslen : s.length = x.length + 1)
    (hdv : ∀ t < x.length, d.getD t 0 < o) (hxv : ∀ t < x.length, x.getD t 0 < v) :
    RNN.acc_deltas m x d y s = some { m with
      deltaW := m.deltaW + ∑ t ∈ Finset.range x.length,
        outerQ (deltaOutAt d y t) (s.getD t 0),
      deltaV := m.deltaV + ∑ t ∈ Finset.range x.length,
        outerQ (deltaInAt m.W d y s t) (oneHotT (x.getD t 0) v),
      deltaU := m.deltaU + ∑ t ∈ Finset.range x.length,
        outerQ (deltaInAt m.W d y s t) (sPrevAt s t) } := by
  unfold RNN.acc_deltas
  rw [RNN.accDeltasLoop_closed x d y s hdlen hylen hslen hdv hxv (List.range x.length).reverse m
    (fun t ht => List.mem_range.mp (List.mem_reverse.mp ht))]
  have key : ∀ {a b : ℕ} (f : ℕ → Mat a b) (n : ℕ),
      ((List.range n).reverse.map f).sum = ∑ t ∈ Finset.range n, f t := by
    intro a b f n
    rw [List.map_reverse, List.sum_reverse]
    rfl
  rw [key, key, key]

/-- Witness for C4 on a concrete one-timestep instance. -/
theorem RNN.C4_acc_deltas_closed_form_witness :
    RNN.acc_deltas fixC4M [0] [0] [fun _ => (1 : ℚ)/3] [fun _ => (1 : ℚ)/2, fun _ => 0] =
      some { fixC4M with
        deltaW := fixC4M.deltaW + ∑ t ∈ Finset.range 1,
          outerQ (deltaOutAt [0] [fun _ => (1 : ℚ)/3] t)
            (List.getD [fun _ => (1 : ℚ)/2, fun _ => 0] t 0),
        deltaV := fixC4M.deltaV + ∑ t ∈ Finset.range 1,
          outerQ (deltaInAt fixC4M.W [0] [fun _ => (1 : ℚ)/3]
            [fun _ => (1 : ℚ)/2, fun _ => 0] t) (oneHotT (List.getD [0] t 0) 1),
        deltaU := fixC4M.deltaU + ∑ t ∈ Finset.range 1,
          outerQ (deltaInAt fixC4M.W [0] [fun _ => (1 : ℚ)/3]
            [fun _ => (1 : ℚ)/2, fun _ => 0] t)
            (sPrevAt [fun _ => (1 : ℚ)/2, fun _ => 0] t) } :=
  RNN.C4_acc_deltas_closed_form fixC4M [0] [0] [fun _ => (1 : ℚ)/3]
    [fun _ => (1 : ℚ)/2, fun _ => 0] (by decide) (by decide) (by decide)
    (by decide) (by decide)

/-- `List.set` leaves other positions unchanged (stated with `getD`). -/
theorem getD_set_ne {α : Type} (l : List α) (t j : ℕ) (a d₀ : α) (h : j ≠ t) :
    (l.set t a).getD j d₀ = l.getD j d₀ := by
  simp [List.getD_eq_getElem?_getD, List.getElem?_set_ne (by omega : t ≠ j)]

/-- `List.set` writes its value at an in-range position (stated with
`getD`). -/
theorem getD_set_self {α : Type} (l : List α) (t : ℕ) (a d₀ : α) (h : t < l.length) :
    (l.set t a).getD t d₀ = a := by
  simp [List.getD_eq_getElem?_getD, List.getElem?_set_self, h]

/-- For every positive `expF` and nonempty output dimension, a softmax
output is a probability distribution: entries nonnegative, sum exactly
`1`. -/
theorem softmax_prob {n : ℕ} (expF : ℚ → ℚ) (hE : ∀ z, 0 < expF z) (hn : 0 < n)
    (z : Vec n) : (∀ i, 0 ≤ softmax expF z i) ∧ (∑ i, softmax expF z i) = 1 := by
  have hS : 0 < ∑ j, expF (z j) :=
    Finset.sum_pos (fun j _ => hE (z j)) ⟨⟨0, hn⟩, Finset.mem_univ _⟩
  constructor
  · intro i
    exact div_nonneg (le_of_lt (hE _)) (le_of_lt hS)
  · unfold softmax
    rw [← Finset.sum_div]
    exact div_self (ne_of_gt hS)

/-- The forward loop succeeds on valid tokens and traces of the right
lengths; it preserves the lengths, touches only the positions it
iterates over, and fills each visited output row with a softmax value. -/
theorem RNN.predictLoop_spec {v h o : ℕ} (m : RNN v h o) (expF : ℚ → ℚ) (x : List ℕ) :
    ∀ (ts : List ℕ) (y : List (Vec o)) (s : List (Vec h)),
      ts.Nodup → (∀ t ∈ ts, t < x.length ∧ x.getD t 0 < v) →
      y.length = x.length → s.length = x.length + 1 →
      ∃ y' s', RNN.predictLoop m expF x ts y s = some (y', s') ∧
        y'.length = y.length ∧ s'.length = s.length ∧
        (∀ j, j ∉ ts → y'.getD j 0 = y.getD j 0 ∧ s'.getD j 0 = s.getD j 0) ∧
        (∀ t ∈ ts, ∃ z, y'.getD t 0 = softmax expF z) := by
  intro ts
  induction ts with
  | nil =>
    intro y s _ _ _ _
    exact ⟨y, s, rfl, rfl, rfl, fun j _ => ⟨rfl, rfl⟩,
      fun t ht => absurd ht (List.not_mem_nil t)⟩
  | cons t ts' ih =>
    intro y s hnd hmem hy hs
    obtain ⟨htx, hxval⟩ := hmem t (List.mem_cons_self t ts')
    simp only [RNN.predictLoop]
    rw [pyIdx_natCast x t, get?_eq_some_getD x t 0 htx]
    simp only [Option.bind_eq_bind', Option.some_bind]
    rw [make_onehot_lt hxval]
    simp only [Option.some_bind]
    obtain ⟨sp, hsp⟩ : ∃ sp, pyIdx s ((t : ℤ) - 1) = some sp := by
      cases t with
      | zero =>
        refine ⟨s.getD (s.length - 1) 0, ?_⟩
        rw [show (((0 : ℕ) : ℤ) - 1) = -1 from by norm_num,
          pyIdx_neg_one s (by intro hnil; rw [hnil] at hs; simp at hs) 0]
      | succ t' =>
        refine ⟨s.getD t' 0, ?_⟩
        rw [show (((t' + 1 : ℕ) : ℤ) - 1) = ((t' : ℕ) : ℤ) from by push_cast; ring,
          pyIdx_natCast s t', get?_eq_some_getD s t' 0 (by omega)]
    rw [hsp]
    simp only [Option.some_bind]
    obtain ⟨y', s', hloop, hylen, hslen, hframe, hvals⟩ :=
      ih (y.set t (softmax expF (matVec m.W
            (fun i => sigmoid expF ((matVec m.V (oneHotT (x.getD t 0) v) + matVec m.U sp) i)))))
        (s.set t (fun i => sigmoid expF ((matVec m.V (oneHotT (x.getD t 0) v) + matVec m.U sp) i)))
        (List.Nodup.of_cons hnd) (fun u hu => hmem u (List.mem_cons_of_mem t hu))
        (by rw [List.length_set]; exact hy) (by rw [List.length_set]; exact hs)
    have htts' : t ∉ ts' := (List.nodup_cons.mp hnd).1
    refine ⟨y', s', hloop, by rw [hylen, List.length_set],
      by rw [hslen, List.length_set], ?_, ?_⟩
    · intro j hj
      have hjt : j ≠ t := fun hh => hj (hh ▸ List.mem_cons_self t ts')
      have hjts' : j ∉ ts' := fun hh => hj (List.mem_cons_of_mem t hh)
      obtain ⟨hyj, hsj⟩ := hframe j hjts'
      rw [hyj, hsj, getD_set_ne _ _ _ _ _ hjt, getD_set_ne _ _ _ _ _ hjt]
      exact ⟨rfl, rfl⟩
    · intro u hu
      rcases List.mem_cons.mp hu with hut | hu'
      · subst hut
        obtain ⟨hyu, -⟩ := hframe u htts'
        rw [hyu, getD_set_self _ _ _ _ (by rw [hy]; exact htx)]
        exact ⟨_, rfl⟩
      · exact hvals u hu'

/-- **C5** (confirmed).  For every non-empty token sequence with entries
in `[0, vocabSize)` (and positive output dimension, positive `expF`
standing for `exp`), `predict` succeeds and returns `y` of length
`len(x)` whose rows are probability distributions (entries `≥ 0`,
summing exactly to `1`), and `s` of length `len(x)+1` whose row
`len(x)` — the row read as `s[t-1]` when `t = 0` — is the zero vector;
the threaded model state is returned unchanged: `predict` mutates no
model state. -/
theorem RNN.C5_predict_spec {v h o : ℕ} (m : RNN v h o) (expF : ℚ → ℚ) (x : List ℕ)
    (hE : ∀ z, 0 < expF z) (ho : 0 < o) (_hx : x ≠ [])
    (hxv : ∀ t < x.length, x.getD t 0 < v) :
    ∃ y s, RNN.predict m expF x = some (y, s, m) ∧
      y.length = x.length ∧ s.length = x.length + 1 ∧
      (∀ t < x.length, (∀ i, 0 ≤ y.getD t 0 i) ∧ (∑ i, y.getD t 0 i) = 1) ∧
      s.getD x.length 0 = 0 := by
  obtain ⟨y', s', hloop, hylen, hslen, hframe, hvals⟩ :=
    RNN.predictLoop_spec m expF x (List.range x.length)
      (List.replicate x.length 0) (List.replicate (x.length + 1) 0)
      (List.nodup_range x.length)
      (fun t ht => ⟨List.mem_range.mp ht, hxv t (List.mem_range.mp ht)⟩)
      (List.length_replicate _ _) (List.length_replicate _ _)
  refine ⟨y', s', ?_, by rw [hylen, List.length_replicate],
    by rw [hslen, List.length_replicate], ?_, ?_⟩
  · unfold RNN.predict
    rw [hloop]
    rfl
  · intro t ht
    obtain ⟨z, hz⟩ := hvals t (List.mem_range.mpr ht)
    rw [hz]
    exact softmax_prob expF hE ho z
  · obtain ⟨-, hsj⟩ := hframe x.length (by simp)
    rw [hsj]
    simp [List.getD_eq_getElem?_getD, List.getElem?_replicate]

/-- Witness for C5 at a concrete model, `expF = 1` and `x = [0]`. -/
theorem RNN.C5_predict_spec_witness :
    ∃ y s, RNN.predict fixC5M (fun _ => 1) [0] = some (y, s, fixC5M) ∧
      y.length = List.length [0] ∧ s.length = List.length [0] + 1 ∧
      (∀ t < List.length [0], (∀ i, 0 ≤ y.getD t 0 i) ∧ (∑ i, y.getD t 0 i) = 1) ∧
      s.getD (List.length [0]) 0 = 0 :=
  RNN.C5_predict_spec fixC5M (fun _ => 1) [0] (fun _ => one_pos) (by decide)
    (by decide) (by decide)

/-- **C6** (confirmed).  For every input `x` (with `t = len(x) - 1`) and
every truncation depth `steps`, the inner loop of `acc_deltas_bptt_np`
iterates over `range(min(steps+1, t))`, hence executes exactly
`min(steps+1, t)` iterations; every iteration index `t_` satisfies
`t_ < t`, so the unrolled reads `x[t-t_]` stay at positions `≥ 1` and the
reads `s[t-t_-1]` at positions `≥ 0` — the propagation never reaches one
step before index 0 of the sequence. -/
theorem RNN.C6_bptt_np_inner_loop_bound (x : List ℕ) (steps : ℕ) (hx : x ≠ []) :
    (RNN.bpttNpInnerIters x steps).length = min (steps + 1) (x.length - 1) ∧
    ∀ t_ ∈ RNN.bpttNpInnerIters x steps,
      1 ≤ ((x.length : ℤ) - 1) - t_ ∧ 0 ≤ ((x.length : ℤ) - 1) - t_ - 1 := by
  have hlen : 0 < x.length := List.length_pos.mpr hx
  constructor
  · simp only [RNN.bpttNpInnerIters, List.length_range]
    omega
  · intro t_ ht_
    simp only [RNN.bpttNpInnerIters, List.mem_range] at ht_
    omega

/-- Witness for C6 at `x = [5, 5, 5]`, `steps = 7`. -/
theorem RNN.C6_bptt_np_inner_loop_bound_witness :
    (RNN.bpttNpInnerIters [5, 5, 5] 7).length = min 8 2 :=
  (RNN.C6_bptt_np_inner_loop_bound [5, 5, 5] 7 (by decide)).1

/-- On a length-1 input the inner lookback list of `acc_deltas_bptt_np`
is empty (`min(steps+1, 0) = 0`), so the call reduces to the output-layer
lookups and the assignment of `deltaW`. -/
theorem RNN.bptt_np_len1_shape {v h o : ℕ} (m : RNN v h o) (x0 : ℕ) (d : List ℕ)
    (y : List (Vec o)) (s : List (Vec h)) (steps : ℕ) :
    RNN.acc_deltas_bptt_np m [x0] d y s steps =
      (pyIdx d 0).bind fun d0 =>
        (make_onehot d0 o).bind fun one_hot_dt =>
          (pyIdx y 0).bind fun yt =>
            (pyIdx s 0).bind fun st =>
              some { m with deltaW := outerQ (one_hot_dt - yt) st } := by
  have hiter : RNN.bpttNpInnerIters [x0] steps = [] := by
    have hmin : min ((steps : ℤ) + 1) ((([x0] : List ℕ).length : ℤ) - 1) = 0 := by
      simp only [List.length_singleton]
      omega
    simp [RNN.bpttNpInnerIters, hmin]
  unfold RNN.acc_deltas_bptt_np
  rw [hiter]
  rfl

/-- **C9** (confirmed).  On any length-1 input sequence the inner loop of
`acc_deltas_bptt_np` runs `min(steps+1, 0) = 0` iterations, so a
successful call leaves `deltaV` and `deltaU` exactly as they were before
the call, while `deltaW` is overwritten: the result does not depend on
the incoming `deltaW` at all. -/
theorem RNN.C9_bptt_np_len1_frame {v h o : ℕ} (m : RNN v h o) (x0 : ℕ) (d : List ℕ)
    (y : List (Vec o)) (s : List (Vec h)) (steps : ℕ)
    (hs : (RNN.acc_deltas_bptt_np m [x0] d y s steps).isSome) :
    ((RNN.acc_deltas_bptt_np m [x0] d y s steps).get hs).deltaV = m.deltaV ∧
    ((RNN.acc_deltas_bptt_np m [x0] d y s steps).get hs).deltaU = m.deltaU ∧
    ∀ D : Mat o h, RNN.acc_deltas_bptt_np { m with deltaW := D } [x0] d y s steps =
      RNN.acc_deltas_bptt_np m [x0] d y s steps := by
  obtain ⟨r, hr⟩ := Option.isSome_iff_exists.mp hs
  have hrEq := hr
  rw [RNN.bptt_np_len1_shape] at hrEq
  cases hd0 : pyIdx d 0 with
  | none => rw [hd0] at hrEq; simp at hrEq
  | some d0 =>
  rw [hd0] at hrEq
  simp only [Option.some_bind] at hrEq
  cases hoh : make_onehot d0 o with
  | none => rw [hoh] at hrEq; simp at hrEq
  | some one_hot_dt =>
  rw [hoh] at hrEq
  simp only [Option.some_bind] at hrEq
  cases hyt : pyIdx y 0 with
  | none => rw [hyt] at hrEq; simp at hrEq
  | some yt =>
  rw [hyt] at hrEq
  simp only [Option.some_bind] at hrEq
  cases hst : pyIdx s 0 with
  | none => rw [hst] at hrEq; simp at hrEq
  | some st =>
  rw [hst] at hrEq
  simp only [Option.some_bind, Option.some.injEq] at hrEq
  refine ⟨?_, ?_, ?_⟩
  · simp [hr, ← hrEq]
  · simp [hr, ← hrEq]
  · intro D
    rw [RNN.bptt_np_len1_shape, RNN.bptt_np_len1_shape]

/-- Witness for C9 on a concrete length-1 instance: the call succeeds and
`deltaV`, `deltaU` are untouched. -/
theorem RNN.C9_bptt_np_len1_frame_witness :
    ((RNN.acc_deltas_bptt_np fixC9Model [0] [0] fixC9Y fixC9S 5).get (by decide)).deltaV =
      fixC9Model.deltaV ∧
    RNN.acc_deltas_bptt_np { fixC9Model with deltaW := fun _ _ => 7 } [0] [0] fixC9Y fixC9S 5 =
      RNN.acc_deltas_bptt_np fixC9Model [0] [0] fixC9Y fixC9S 5 :=
  ⟨(RNN.C9_bptt_np_len1_frame fixC9Model 0 [0] fixC9Y fixC9S 5 (by decide)).1,
   (RNN.C9_bptt_np_len1_frame fixC9Model 0 [0] fixC9Y fixC9S 5 (by decide)).2.2 (fun _ _ => 7)⟩

/-- **C7** (counterexample).  With `min_change = 1`, an initial dev loss
of `0` and every epoch's dev loss equal to `0`, the change in loss is `0
< min_change` between all consecutive epochs, so by the claim the loop
should exit after 3 consecutive below-threshold epochs (before running a
4th); but `min_change_count` is initialised to `-1` (runner.py line 152),
so `train` runs 4 epochs. -/
theorem Runner.C7_early_stop_counterexample :
    |(0 : ℚ) - 0| < 1 ∧ Runner.train_epochsRun (fun _ => 0) 0 1 10 = 4 := by
  constructor
  · norm_num
  · norm_num [Runner.train_epochsRun, Runner.trainLoop]

/-- The epoch loop runs until the counter recursion `countAt` first
exceeds `2` (stopping right after that epoch), else for all remaining
epochs. -/
theorem Runner.trainLoop_eq_spec (L : ℕ → ℚ) (init mc : ℚ) :
    ∀ (n e : ℕ),
      Runner.trainLoop L mc n e (if e = 0 then init else L (e - 1))
          (if e = 0 then -1 else Runner.countAt L init mc (e - 1)) =
        (match Runner.firstStopIdx ((List.range' e n).map (Runner.countAt L init mc)) with
         | some i => i + 1
         | none => n) := by
  intro n
  induction n with
  | zero => intro e; simp [Runner.trainLoop, Runner.firstStopIdx]
  | succ n ih =>
    intro e
    have hc : (if |(if e = 0 then init else L (e - 1)) - L e| < mc
          then (if e = 0 then (-1 : ℤ) else Runner.countAt L init mc (e - 1)) + 1 else 0) =
        Runner.countAt L init mc e := by
      cases e with
      | zero => by_cases hsm : |init - L 0| < mc <;> simp [hsm, Runner.countAt]
      | succ e' => simp [Runner.countAt]
    rw [List.range'_succ, List.map_cons]
    simp only [Runner.trainLoop, hc, Runner.firstStopIdx]
    by_cases hbr : (2 : ℤ) < Runner.countAt L init mc e
    · simp [hbr]
    · simp only [hbr, if_false, if_neg (by omega : ¬ Runner.countAt L init mc e > 2)]
      have ih' := ih (e + 1)
      simp only [Nat.add_sub_cancel, if_neg (Nat.succ_ne_zero e)] at ih'
      rw [ih']
      cases Runner.firstStopIdx ((List.range' (e + 1) n).map (Runner.countAt L init mc)) with
      | none => simp [Nat.add_comm]
      | some j => simp [Nat.add_comm]

/-- **C7** (amended).  `train` and `train_np` stop at the first of: the
maximum number of epochs, or the plateau counter `countAt` exceeding `2`
at the end of an epoch, in which case the loop exits right after that
epoch.  Because `min_change_count` starts at `-1`, the counter is `0`
after the first epoch regardless of its loss change; it then increments
on each epoch whose dev-loss change is below `min_change` and resets to
`0` otherwise.  So a plateau beginning at the very first epoch needs 4
consecutive below-threshold epochs before the loop exits, a later
plateau 3. -/
theorem Runner.C7_early_stop_amended (L : ℕ → ℚ) (init mc : ℚ) (epochs : ℕ) :
    Runner.train_epochsRun L init mc epochs =
      (match Runner.firstStopIdx ((List.range epochs).map (Runner.countAt L init mc)) with
       | some i => i + 1
       | none => epochs) ∧
    Runner.train_np_epochsRun L init mc epochs =
      (match Runner.firstStopIdx ((List.range epochs).map (Runner.countAt L init mc)) with
       | some i => i + 1
       | none => epochs) := by
  have key := Runner.trainLoop_eq_spec L init mc epochs 0
  simp only [if_pos rfl] at key
  rw [List.range_eq_range']
  exact ⟨key, key⟩

/-- **C8** (confirmed).  In `train` and `train_np`, when `anneal > 0` the
learning rate of zero-based epoch `epoch` is
`a0 / ((epoch + anneal) / anneal)`, and when `anneal = 0` it is `a0` in
every epoch. -/
theorem Runner.C8_learning_rate (a0 anneal : ℚ) (epoch : ℕ) :
    (0 < anneal →
      Runner.train_learning_rate a0 anneal epoch = a0 / (((epoch : ℚ) + anneal) / anneal) ∧
      Runner.train_np_learning_rate a0 anneal epoch = a0 / (((epoch : ℚ) + anneal) / anneal)) ∧
    (anneal = 0 →
      Runner.train_learning_rate a0 anneal epoch = a0 ∧
      Runner.train_np_learning_rate a0 anneal epoch = a0) := by
  constructor
  · intro hpos
    constructor <;>
      simp [Runner.train_learning_rate, Runner.train_np_learning_rate, hpos]
  · intro h0
    constructor <;>
      simp [Runner.train_learning_rate, Runner.train_np_learning_rate, h0]

/-- Witness for C8 at `a0 = 3`, `anneal = 5`, `epoch = 7`. -/
theorem Runner.C8_learning_rate_witness :
    Runner.train_learning_rate 3 5 7 = 3 / (((7 : ℚ) + 5) / 5) :=
  ((Runner.C8_learning_rate 3 5 7).1 (by norm_num)).1

/-- Dotting with a one-hot vector picks out the indexed entry. -/
theorem npDot_onehot {n : ℕ} (i : ℕ) (hi : i < n) (w : Vec n) :
    Runner.npDot (oneHotT i n) w = some (vecAt w i) := by
  unfold Runner.npDot oneHotT vecAt
  rw [dif_pos rfl, dif_pos hi]
  refine congrArg some ?_
  have hiff : ∀ j : Fin n, ((j : ℕ) = i) = (j = ⟨i, hi⟩) := by
    intro j
    apply propext
    exact ⟨fun hh => Fin.ext hh, fun hh => by rw [hh]⟩
  simp only [hiff, ite_mul, one_mul, zero_mul]
  rw [Finset.sum_ite_eq' Finset.univ (⟨i, hi⟩ : Fin n) (fun j => w (Fin.cast rfl j))]
  simp

/-- `predict` succeeds on any sequence of in-range tokens, returning
traces of the expected lengths and the model unchanged. -/
theorem RNN.predict_success {v h o : ℕ} (m : RNN v h o) (expF : ℚ → ℚ) (x : List ℕ)
    (hxv : ∀ t < x.length, x.getD t 0 < v) :
    ∃ y s, RNN.predict m expF x = some (y, s, m) ∧
      y.length = x.length ∧ s.length = x.length + 1 := by
  obtain ⟨y', s', hloop, hylen, hslen, -, -⟩ :=
    RNN.predictLoop_spec m expF x (List.range x.length)
      (List.replicate x.length 0) (List.replicate (x.length + 1) 0)
      (List.nodup_range x.length)
      (fun t ht => ⟨List.mem_range.mp ht, hxv t (List.mem_range.mp ht)⟩)
      (List.length_replicate _ _) (List.length_replicate _ _)
  refine ⟨y', s', ?_, by rw [hylen, List.length_replicate],
    by rw [hslen, List.length_replicate]⟩
  unfold RNN.predict
  rw [hloop]
  rfl

/-- Closed form of the `compute_loss` loop when every desired index is
below the one-hot size: the accumulated loss drops `logF` of the
predicted probability of each desired token. -/
theorem Runner.computeLossLoop_closed {n : ℕ} (logF : ℚ → ℚ) (d : List ℕ)
    (y : List (Vec n)) :
    ∀ (ts : List ℕ) (loss : ℚ),
      (∀ t ∈ ts, t < d.length ∧ d.getD t 0 < n ∧ t < y.length) →
      Runner.computeLossLoop n logF d y ts loss =
        some (loss - (ts.map (fun t => logF (vecAt (y.getD t 0) (d.getD t 0)))).sum) := by
  intro ts
  induction ts with
  | nil =>
    intro loss _
    simp [Runner.computeLossLoop]
  | cons t ts' ih =>
    intro loss hts
    obtain ⟨htd, hdval, hty⟩ := hts t (List.mem_cons_self t ts')
    simp only [Runner.computeLossLoop]
    rw [pyIdx_natCast d t, get?_eq_some_getD d t 0 htd]
    simp only [Option.bind_eq_bind', Option.some_bind]
    rw [make_onehot_lt hdval]
    simp only [Option.some_bind]
    rw [pyIdx_natCast y t, get?_eq_some_getD y t 0 hty]
    simp only [Option.some_bind]
    rw [npDot_onehot (d.getD t 0) hdval (fun i => logF (y.getD t 0 i))]
    simp only [Option.some_bind]
    rw [ih (loss - vecAt (fun i => logF (y.getD t 0 i)) (d.getD t 0))
      (fun u hu => hts u (List.mem_cons_of_mem t hu))]
    refine congrArg some ?_
    have hv : vecAt (fun i => logF (y.getD t 0 i)) (d.getD t 0) =
        logF (vecAt (y.getD t 0) (d.getD t 0)) := by
      unfold vecAt
      rw [dif_pos hdval, dif_pos hdval]
    rw [hv, List.map_cons, List.sum_cons]
    ring

/-- A desired index `≥ vocab_size` makes the one-hot construction in
`compute_loss_np` fail instead of contributing a loss term. -/
theorem Runner.compute_loss_np_onehot_fail (v h o : ℕ) (logF expF : ℚ → ℚ)
    (m : RNN v h o) (x d : List ℕ) (d0 : ℕ)
    (hd0 : pyIdx d 0 = some d0) (hge : v ≤ d0) :
    Runner.compute_loss_np logF expF m x d = none := by
  unfold Runner.compute_loss_np
  cases hp : RNN.predict m expF x with
  | none => simp
  | some p =>
  obtain ⟨y, s, m₂⟩ := p
  simp only [Option.bind_eq_bind', Option.some_bind]
  cases hyt : pyIdx y ((x.length : ℤ) - 1) with
  | none => simp
  | some yt =>
  simp only [Option.some_bind]
  rw [hd0]
  simp only [Option.some_bind]
  unfold make_onehot
  rw [if_neg (by omega)]
  simp

/-- A desired index `≥ vocab_size` at the first timestep makes the
one-hot construction in `compute_loss` fail instead of contributing a
loss term. -/
theorem Runner.compute_loss_onehot_fail (v h o : ℕ) (logF expF : ℚ → ℚ)
    (m : RNN v h o) (x d : List ℕ) (d0 : ℕ) (hx : x ≠ [])
    (hd0 : pyIdx d 0 = some d0) (hge : v ≤ d0) :
    Runner.compute_loss logF expF m x d = none := by
  unfold Runner.compute_loss
  cases hp : RNN.predict m expF x with
  | none => simp
  | some p =>
  obtain ⟨y, s, m₂⟩ := p
  simp only [Option.bind_eq_bind', Option.some_bind]
  obtain ⟨n, hn⟩ : ∃ n, x.length = n + 1 := by
    cases x with
    | nil => exact absurd rfl hx
    | cons a l => exact ⟨l.length, rfl⟩
  rw [hn, List.range_succ_eq_map]
  simp only [Runner.computeLossLoop, Nat.cast_zero]
  rw [hd0]
  simp only [Option.bind_eq_bind', Option.some_bind]
  unfold make_onehot
  rw [if_neg (by omega)]
  simp

/-- Under `vocab_size = out_vocab_size`, `compute_loss_np` returns the
negative log-likelihood of the single desired label under the final
predicted distribution. -/
theorem Runner.compute_loss_np_nll (v hdim : ℕ) (logF expF : ℚ → ℚ) (m : RNN v hdim v)
    (x d : List ℕ) (hx : x ≠ []) (hxv : ∀ t < x.length, x.getD t 0 < v)
    (hd : 0 < d.length) (hdv : d.getD 0 0 < v) :
    ∃ y s, RNN.predict m expF x = some (y, s, m) ∧
      Runner.compute_loss_np logF expF m x d =
        some (-(logF (vecAt (y.getD (x.length - 1) 0) (d.getD 0 0)))) := by
  obtain ⟨y, s, hp, hylen, -⟩ := RNN.predict_success m expF x hxv
  have hxpos : 0 < x.length := List.length_pos.mpr hx
  refine ⟨y, s, hp, ?_⟩
  unfold Runner.compute_loss_np
  rw [hp]
  simp only [Option.bind_eq_bind', Option.some_bind]
  rw [show ((x.length : ℤ) - 1) = ((x.length - 1 : ℕ) : ℤ) from by omega,
    pyIdx_natCast y (x.length - 1), get?_eq_some_getD y (x.length - 1) 0 (by omega)]
  simp only [Option.some_bind]
  rw [show pyIdx d 0 = d.get? 0 from pyIdx_natCast d 0, get?_eq_some_getD d 0 0 hd]
  simp only [Option.some_bind]
  rw [make_onehot_lt hdv]
  simp only [Option.some_bind]
  rw [npDot_onehot (d.getD 0 0) hdv (fun i => logF (y.getD (x.length - 1) 0 i))]
  simp only [Option.some_bind]
  refine congrArg some ?_
  rw [zero_sub]
  unfold vecAt
  rw [dif_pos hdv, dif_pos hdv]

/-- Under `vocab_size = out_vocab_size`, `compute_loss` returns the
negative log-likelihood sum over `-log y[t][d[t]]`. -/
theorem Runner.compute_loss_nll (v hdim : ℕ) (logF expF : ℚ → ℚ) (m : RNN v hdim v)
    (x d : List ℕ) (hxv : ∀ t < x.length, x.getD t 0 < v)
    (hdlen : x.length ≤ d.length) (hdv : ∀ t < x.length, d.getD t 0 < v) :
    ∃ y s, RNN.predict m expF x = some (y, s, m) ∧
      Runner.compute_loss logF expF m x d =
        some (-(∑ t ∈ Finset.range x.length, logF (vecAt (y.getD t 0) (d.getD t 0)))) := by
  obtain ⟨y, s, hp, hylen, -⟩ := RNN.predict_success m expF x hxv
  refine ⟨y, s, hp, ?_⟩
  unfold Runner.compute_loss
  rw [hp]
  simp only [Option.bind_eq_bind', Option.some_bind]
  rw [Runner.computeLossLoop_closed logF d y (List.range x.length) 0
    (fun t ht => ⟨by have := List.mem_range.mp ht; omega,
      hdv t (List.mem_range.mp ht), by have := List.mem_range.mp ht; omega⟩)]
  refine congrArg some ?_
  rw [zero_sub]
  rfl

/-- **C10** (confirmed).  `compute_loss` and `compute_loss_np` build
each one-hot with the model's input `vocab_size` (not the output
vocabulary size): a desired index `≥ vocab_size` makes the one-hot
construction fail (conjuncts 1-2; the concrete conjunct 5 shows an index
below the output size `3` but not below `vocab_size = 2` still fails);
under the precondition `vocab_size = out_vocab_size` with in-range
indices the returned value is the negative log-likelihood (sum of)
`-log y[t][d[t]]` (conjuncts 3-4); with mismatched sizes even a valid
index yields no loss term, because the dot product of the
`vocab_size`-length one-hot with the `out_vocab_size`-length log row
fails (conjunct 6). -/
theorem Runner.C10_loss_onehot_vocab_size :
    (∀ (v h o : ℕ) (logF expF : ℚ → ℚ) (m : RNN v h o) (x d : List ℕ) (d0 : ℕ),
        pyIdx d 0 = some d0 → v ≤ d0 →
        Runner.compute_loss_np logF expF m x d = none) ∧
    (∀ (v h o : ℕ) (logF expF : ℚ → ℚ) (m : RNN v h o) (x d : List ℕ) (d0 : ℕ),
        x ≠ [] → pyIdx d 0 = some d0 → v ≤ d0 →
        Runner.compute_loss logF expF m x d = none) ∧
    (∀ (v hdim : ℕ) (logF expF : ℚ → ℚ) (m : RNN v hdim v) (x d : List ℕ),
        x ≠ [] → (∀ t < x.length, x.getD t 0 < v) → 0 < d.length → d.getD 0 0 < v →
        ∃ y s, RNN.predict m expF x = some (y, s, m) ∧
          Runner.compute_loss_np logF expF m x d =
            some (-(logF (vecAt (y.getD (x.length - 1) 0) (d.getD 0 0))))) ∧
    (∀ (v hdim : ℕ) (logF expF : ℚ → ℚ) (m : RNN v hdim v) (x d : List ℕ),
        (∀ t < x.length, x.getD t 0 < v) → x.length ≤ d.length →
        (∀ t < x.length, d.getD t 0 < v) →
        ∃ y s, RNN.predict m expF x = some (y, s, m) ∧
          Runner.compute_loss logF expF m x d =
            some (-(∑ t ∈ Finset.range x.length,
              logF (vecAt (y.getD t 0) (d.getD t 0))))) ∧
    Runner.compute_loss_np (fun q => q) (fun _ => 1) fixC10M [0] [2] = none ∧
    Runner.compute_loss_np (fun q => q) (fun _ => 1) fixC10M [0] [0] = none := by
  refine ⟨?_, ?_, ?_, ?_, ?_, ?_⟩
  · intro v h o logF expF m x d d0 hd0 hge
    exact Runner.compute_loss_np_onehot_fail v h o logF expF m x d d0 hd0 hge
  · intro v h o logF expF m x d d0 hx hd0 hge
    exact Runner.compute_loss_onehot_fail v h o logF expF m x d d0 hx hd0 hge
  · intro v hdim logF expF m x d hx hxv hd hdv
    exact Runner.compute_loss_np_nll v hdim logF expF m x d hx hxv hd hdv
  · intro v hdim logF expF m x d hxv hdlen hdv
    exact Runner.compute_loss_nll v hdim logF expF m x d hxv hdlen hdv
  · decide
  · decide

/-- Witness for C10: a concrete out-of-range desired index fails, and a
concrete square model yields the negative log-probability of the desired
label. -/
theorem Runner.C10_loss_onehot_vocab_size_witness :
    Runner.compute_loss_np (fun q => q) (fun _ => 1) fixC10w [0] [5] = none ∧
    ∃ y s, RNN.predict fixC10w (fun _ => 1) [0] = some (y, s, fixC10w) ∧
      Runner.compute_loss_np (fun q => q) (fun _ => 1) fixC10w [0] [0] =
        some (-(vecAt (y.getD (List.length [0] - 1) 0) (List.getD [0] 0 0))) :=
  ⟨Runner.C10_loss_onehot_vocab_size.1 1 1 1 (fun q => q) (fun _ => 1) fixC10w [0] [5] 5
      (by decide) (by decide),
   Runner.C10_loss_onehot_vocab_size.2.2.1 1 1 (fun q => q) (fun _ => 1) fixC10w [0] [0]
      (by decide) (by decide) (by decide) (by decide)⟩
